import Mathlib

/-!
Verification development for the stale-branches-cleanup GitHub action
(`src/index.js`).  The action lists the branches of a repository and, for
each branch, decides whether to delete it: a branch is deleted when it is
stale (last commit strictly older than a configured threshold), is not the
default branch, is not protected, is not excluded by the configured
`skip-branches` list, and passes the open-PR / unmerged-commit gates.
The run is guarded by an API rate-limit probe, a cap on processed deletion
candidates, an optional inter-branch throttle delay, and a per-branch
error-continuation policy.

The embedding below is a direct translation of `src/index.js`:
  * external API calls are modelled by per-branch response records
    (`BranchEnv`); a `none` / `false` field models the corresponding call
    throwing;
  * the mutable accumulators `outputDeletedBranches`, `deletedCount` and
    `processedCount` become an explicit `RunState` threaded through the
    loop;
  * the destructive `deleteRef` call and the `setTimeout` throttle are
    recorded as events (`ApiEvent`), so that theorems can speak about which
    external effects a run performs;
  * JavaScript timestamps (`Date.getTime()`, millisecond integers) are
    modelled as `Int`.
-/

namespace StaleBranches

/-- Pull-request state as reported by the hosting API (the JS code compares
`pr.state` against the strings "open" and "closed"; `opened` models the
string "open", which is a keyword in Lean). -/
inductive PRState
  | opened
  | closed
deriving DecidableEq

/-- One pull-request record as consumed by the action.  `merged_at` is
`none` when the record carries no merge timestamp, so the JS test
`!pr.merged_at` corresponds to `merged_at = none`. -/
structure PullRequest where
  state : PRState
  merged_at : Option Int
deriving DecidableEq

/-- A branch as returned by the branch-listing call: its name and its
`protected` flag (`protected` is a Lean keyword, hence the underscore). -/
structure Branch where
  name : String
  protected_ : Bool
deriving DecidableEq

/-- The responses the external API gives while this one branch is being
processed.  A `none` field (or `deleteOk = false`) models the
corresponding call throwing an error, which the JS code catches at the
branch level. -/
structure BranchEnv where
  /-- `octokit.rest.rateLimit.get()`: remaining core quota; `none` models
  the probe call itself failing (the guard then fails open). -/
  rateLimitRemaining : Option Nat
  /-- `octokit.rest.repos.getCommit`: the committer date of the branch
  head, in milliseconds; `none` models the call throwing. -/
  commitDate : Option Int
  /-- `octokit.rest.pulls.list` with `state: 'open'` and this branch as
  head: the number of open PRs returned; `none` models the call throwing. -/
  openPRCount : Option Nat
  /-- `octokit.rest.repos.compareCommits` base = default branch, head =
  this branch: the `ahead_by` count; `none` models the call throwing. -/
  aheadBy : Option Nat
  /-- paginated `octokit.rest.pulls.list` with `state: 'all'` and this
  branch as head; `none` models the call throwing. -/
  allPRs : Option (List PullRequest)
  /-- whether `octokit.rest.git.deleteRef` succeeds for this branch;
  `false` models the call throwing. -/
  deleteOk : Bool
deriving DecidableEq

/-- The validated action inputs together with the run context (`now` is
`new Date().getTime()` in milliseconds, `defaultBranch` comes from the
repository metadata).  Field names follow the JS variable names, including
the `skipUmerged` spelling used by the source. -/
structure Config where
  staleDays : Nat
  skipBranches : String
  skipUmerged : Bool
  skipOpenPRs : Bool
  includeClosedPRs : Bool
  maxBranchesToDelete : Nat
  processThrottleMs : Nat
  rateLimitThreshold : Nat
  continueOnErrors : Bool
  dryRun : Bool
  now : Int
  defaultBranch : String
deriving DecidableEq

/-! ## Exclusion rules (`skip-branches` parsing and matching)

The JS code splits the input on commas, trims each part, drops empty
parts, and treats a part containing `*` as a glob pattern compiled to the
regular expression `'^' + item.replace(/\*/g, '.*') + '$'`, and any other
part as a literal branch name.  The compiled pattern is modelled as a list
of tokens: a literal character, `.` (any single character), and the
replacement of `*` (any sequence of characters).  Items containing other
JavaScript-regex metacharacters are outside the modelled fragment:
`compileItem` returns `none` for them.  Among those, an unbalanced `(` or
`[` makes the JS `RegExp` constructor itself throw a `SyntaxError` (so the
whole action fails before the loop starts), while a few others are
accepted by JavaScript with regex semantics that are not glob-literal;
no theorem below relies on the behaviour of the latter group. -/

/-- Token of a compiled exclusion pattern. -/
inductive GlobTok
  | lit (c : Char)
  | anyChar
  | anyStar
deriving DecidableEq

/-- Matching a token list against a character list, with explicit fuel.
Every recursive call strictly decreases the fuel while decreasing
`ts.length + s.length` by at least one, so with initial fuel
`ts.length + s.length` the fuel-zero case is reached only when both lists
are empty, where `ts.isEmpty && s.isEmpty` is the correct answer. -/
def tokensMatchAux : Nat → List GlobTok → List Char → Bool
  | 0, ts, s => ts.isEmpty && s.isEmpty
  | _ + 1, [], s => s.isEmpty
  | _ + 1, .lit _ :: _, [] => false
  | fuel + 1, .lit c :: ts, x :: xs => c == x && tokensMatchAux fuel ts xs
  | _ + 1, .anyChar :: _, [] => false
  | fuel + 1, .anyChar :: ts, _ :: xs => tokensMatchAux fuel ts xs
  | fuel + 1, .anyStar :: ts, [] => tokensMatchAux fuel ts []
  | fuel + 1, .anyStar :: ts, x :: xs =>
      tokensMatchAux fuel ts (x :: xs) || tokensMatchAux fuel (.anyStar :: ts) xs

/-- Anchored match of a compiled pattern against a whole branch name
(the JS regex is anchored with `^` and `$` on both ends). -/
def tokensMatch (ts : List GlobTok) (s : List Char) : Bool :=
  tokensMatchAux (ts.length + s.length) ts s

/-- JavaScript-regex metacharacters other than `.` that an exclusion item
could contain; items containing one of these are outside the modelled
regex fragment. -/
def regexMetaChars : List Char := ['(', ')', '[', ']', '{', '}', '+', '?', '|', '\\', '^', '$']

/-- Whether a character is an unmodelled JavaScript-regex metacharacter. -/
def regexMeta (c : Char) : Bool := regexMetaChars.contains c

/-- Token denoted by one character of an exclusion item inside the
generated regex `'^' + item.replace(/\*/g, '.*') + '$'`: `*` was replaced
by `.*` (any sequence), `.` matches any single character, any plain
character matches itself.  Unmodelled metacharacters give `none`. -/
def tokOfChar (c : Char) : Option GlobTok :=
  if c = '*' then some .anyStar
  else if c = '.' then some .anyChar
  else if regexMeta c then none
  else some (.lit c)

/-- Character-by-character compilation of an item's text; fails as soon
as one character is outside the modelled fragment. -/
def compileChars : List Char → Option (List GlobTok)
  | [] => some []
  | c :: cs =>
    match tokOfChar c, compileChars cs with
    | some t, some ts => some (t :: ts)
    | _, _ => none

/-- Compilation of one wildcard exclusion item, i.e. the construction
`new RegExp('^' + item.replace(/\*/g, '.*') + '$')`, within the modelled
fragment. -/
def compileItem (item : String) : Option (List GlobTok) :=
  compileChars item.data

/-- Splitting a character list on commas (the JS `skipBranches.split(',')`,
reimplemented structurally over the character list). -/
def splitCommaAux : List Char → List Char → List (List Char)
  | [], acc => [acc.reverse]
  | c :: cs, acc =>
    if c = ',' then acc.reverse :: splitCommaAux cs [] else splitCommaAux cs (c :: acc)

/-- Whitespace trimming at both ends (the JS `item.trim()`, reimplemented
structurally over the character list). -/
def trimChars (l : List Char) : List Char :=
  ((l.dropWhile fun c => c.isWhitespace).reverse.dropWhile fun c => c.isWhitespace).reverse

/-- The compiled exclusion rule set: literal names (`skipBranchNames` in
the JS code) and compiled wildcard patterns (`skipBranchPatternsRegex`). -/
structure RuleSet where
  skipBranchNames : List String
  skipBranchPatternsRegex : List (List GlobTok)
deriving DecidableEq

/-- The cleaned-up exclusion items: the input split on commas, each part
trimmed, empty parts dropped (the JS
`skipBranches.split(',').map(item => item.trim()).filter(...)`). -/
def splitExclusions (skipBranches : String) : List String :=
  ((splitCommaAux skipBranches.data []).map fun l => String.mk (trimChars l)).filter
    fun item => item.length > 0

/-- Compilation of all wildcard items in order; fails (as the JS `RegExp`
constructor loop throws) as soon as one item fails. -/
def compileAll : List String → Option (List (List GlobTok))
  | [] => some []
  | i :: is =>
    match compileItem i, compileAll is with
    | some r, some rs => some (r :: rs)
    | _, _ => none

/-- Parsing of the `skip-branches` input: split on commas, trim, drop
empty items, and partition into literal names (no `*`) and compiled
wildcard patterns (containing `*`), in encounter order.  Returns `none`
when some wildcard item falls outside the modelled regex fragment; for an
item such as `release(*` the JS `RegExp` constructor throws, which aborts
the whole action inside its top-level `try`. -/
def parseBranchExclusions (skipBranches : String) : Option RuleSet :=
  match compileAll ((splitExclusions skipBranches).filter fun item => item.data.contains '*') with
  | none => none
  | some regexes =>
    some ⟨(splitExclusions skipBranches).filter fun item => !(item.data.contains '*'), regexes⟩

/-- The per-branch exclusion check: literal membership in
`skipBranchNames`, otherwise any compiled pattern matching the whole
name (the JS pattern loop short-circuits on the first match, which agrees
with `List.any`). -/
def isExcluded (rules : RuleSet) (name : String) : Bool :=
  rules.skipBranchNames.contains name ||
    rules.skipBranchPatternsRegex.any fun pattern => tokensMatch pattern name.data

/-! ### Specification-side glob matcher

Stated from the specification's words for comparison with the
implementation: a wildcard entry "is compiled to an anchored match
equivalent to replacing each `*` with zero or more arbitrary characters
and anchoring both string ends", every other character standing for
itself. -/

/-- Token list of the specification's glob reading of an entry: `*` is the
wildcard, every other character is literal. -/
def specGlobTokens (item : String) : List GlobTok :=
  item.data.map fun c => if c = '*' then .anyStar else .lit c

/-- The specification's anchored glob match of an entry against a whole
branch name. -/
def specGlobMatches (item name : String) : Bool :=
  tokensMatch (specGlobTokens item) name.data

/-! ## Staleness -/

/-- The stale threshold date: `new Date(now.getTime() - staleDays * 24 *
60 * 60 * 1000)`, in milliseconds. -/
def staleThreshold (now : Int) (staleDays : Nat) : Int :=
  now - (staleDays : Int) * 24 * 60 * 60 * 1000

/-- The staleness test `commitDate < staleThreshold` of the JS code. -/
def isStale (commitDate now : Int) (staleDays : Nat) : Bool :=
  commitDate < staleThreshold now staleDays

/-! ## The deletion pipeline -/

/-- The rate-limit guard `isSafeToProceedWithApiCalls`: when the probe
succeeds it demands `remaining ≥ threshold`; when the probe call itself
fails the guard fails open and reports it is safe to proceed. -/
def isSafeToProceedWithApiCalls (env : BranchEnv) (threshold : Nat) : Bool :=
  match env.rateLimitRemaining with
  | some remaining => !(remaining < threshold)
  | none => true

/-- The externally visible effects recorded during a run: an issued
`deleteRef` call (issued, whether or not it succeeds) and a throttle
sleep. -/
inductive ApiEvent
  | deleteCall (name : String)
  | sleep (ms : Nat)
deriving DecidableEq

/-- Why a run aborted: the rate-limit threshold breach, a rethrown
per-branch error, or the pre-loop configuration/parsing throw. -/
inductive RunError
  | rateLimit
  | branchError
  | configError
deriving DecidableEq

/-- How one branch's processing ends, mirroring the JS control flow:
`continue_` is a `continue` statement (skip, no throttle), `fallthrough`
reaches the end of the loop body (throttle applies), `break_` is the
max-deletions `break`, `fatal` is a `throw` that ends the run. -/
inductive StepOutcome
  | continue_
  | fallthrough
  | break_
  | fatal (e : RunError)
deriving DecidableEq

/-- Terminal status of a run. -/
inductive RunStatus
  | completed
  | aborted (e : RunError)
deriving DecidableEq

/-- The mutable loop accumulators of the JS code. -/
structure RunState where
  outputDeletedBranches : List String
  deletedCount : Nat
  processedCount : Nat
deriving DecidableEq

/-- Initial accumulator values. -/
def initialState : RunState := ⟨[], 0, 0⟩

/-- The JS `catch` block around one branch's processing: with
`continue-on-errors` the branch is skipped (a `continue`, so no
throttle), otherwise the error is rethrown and ends the run. -/
def catchBranchError (cfg : Config) (st : RunState) (evs : List ApiEvent) :
    RunState × List ApiEvent × StepOutcome :=
  if cfg.continueOnErrors then (st, evs, .continue_) else (st, evs, .fatal .branchError)

/-- The final delete step: in dry-run mode no call is issued and only
`processedCount` advances; otherwise the `deleteRef` call is issued, and
only on its success is the branch name appended to
`outputDeletedBranches` and `deletedCount` incremented (a failure is
handled by the branch-level catch; `processedCount` is then not reached
either). -/
def deleteStep (cfg : Config) (b : Branch) (env : BranchEnv) (st : RunState) :
    RunState × List ApiEvent × StepOutcome :=
  if cfg.dryRun then
    ({ st with processedCount := st.processedCount + 1 }, [], .fallthrough)
  else if env.deleteOk then
    ({ outputDeletedBranches := st.outputDeletedBranches ++ [b.name],
       deletedCount := st.deletedCount + 1,
       processedCount := st.processedCount + 1 }, [.deleteCall b.name], .fallthrough)
  else
    catchBranchError cfg st [.deleteCall b.name]

/-- `prs.some(pr => pr.state === 'open')`. -/
def hasOpenPRs (prs : List PullRequest) : Bool :=
  prs.any fun pr => pr.state == .opened

/-- `prs.some(pr => pr.state === 'closed' && !pr.merged_at)`. -/
def hasClosedUnmergedPRs (prs : List PullRequest) : Bool :=
  prs.any fun pr => pr.state == .closed && pr.merged_at == none

/-- The unmerged-commit gate (`if (skipUmerged) { ... }`): compare against
the default branch; with commits ahead, either skip outright, or — when
`include-unmerged-and-closed-prs` is set — fetch all PRs for the branch
and skip if any is open, delete if some is closed without a merge
timestamp, and skip otherwise. -/
def unmergedStep (cfg : Config) (b : Branch) (env : BranchEnv) (st : RunState) :
    RunState × List ApiEvent × StepOutcome :=
  if cfg.skipUmerged then
    match env.aheadBy with
    | none => catchBranchError cfg st []
    | some ahead =>
      if ahead > 0 then
        if cfg.includeClosedPRs then
          match env.allPRs with
          | none => catchBranchError cfg st []
          | some prs =>
            if hasOpenPRs prs then (st, [], .continue_)
            else if hasClosedUnmergedPRs prs then deleteStep cfg b env st
            else (st, [], .continue_)
        else (st, [], .continue_)
      else deleteStep cfg b env st
  else deleteStep cfg b env st

/-- Processing of a branch already classified stale: the open-PR gate
(`if (skipOpenPRs) { ... }`) followed by the unmerged-commit gate. -/
def staleStep (cfg : Config) (b : Branch) (env : BranchEnv) (st : RunState) :
    RunState × List ApiEvent × StepOutcome :=
  if cfg.skipOpenPRs then
    match env.openPRCount with
    | none => catchBranchError cfg st []
    | some n =>
      if n > 0 then (st, [], .continue_) else unmergedStep cfg b env st
  else unmergedStep cfg b env st

/-- One iteration of the `for (const branch of branches)` loop: rate-limit
guard (throwing on breach), max-deletions cap (`break`), default-branch,
protected and exclusion skips, commit fetch (inside the branch-level
`try`), staleness test, and the stale-branch gates. -/
def processBranch (cfg : Config) (rules : RuleSet) (b : Branch) (env : BranchEnv)
    (st : RunState) : RunState × List ApiEvent × StepOutcome :=
  if !(isSafeToProceedWithApiCalls env cfg.rateLimitThreshold) then (st, [], .fatal .rateLimit)
  else if st.processedCount ≥ cfg.maxBranchesToDelete then (st, [], .break_)
  else if b.name == cfg.defaultBranch then (st, [], .continue_)
  else if b.protected_ then (st, [], .continue_)
  else if isExcluded rules b.name then (st, [], .continue_)
  else
    match env.commitDate with
    | none => catchBranchError cfg st []
    | some commitDate =>
      if isStale commitDate cfg.now cfg.staleDays then staleStep cfg b env st
      else (st, [], .fallthrough)

/-- The branch loop.  A `continue_` outcome moves straight to the next
branch; a `fallthrough` outcome first emits the throttle sleep when
`process-throttle-ms` is positive; `break_` leaves the loop normally;
`fatal` aborts the run with the accumulated state. -/
def runLoop (cfg : Config) (rules : RuleSet) :
    List (Branch × BranchEnv) → RunState → RunState × List ApiEvent × RunStatus
  | [], st => (st, [], .completed)
  | (b, env) :: rest, st =>
    match processBranch cfg rules b env st with
    | (st1, evs1, .continue_) =>
      match runLoop cfg rules rest st1 with
      | (st2, evs2, status) => (st2, evs1 ++ evs2, status)
    | (st1, evs1, .fallthrough) =>
      match runLoop cfg rules rest st1 with
      | (st2, evs2, status) =>
        (st2,
          (if cfg.processThrottleMs > 0 then evs1 ++ [ApiEvent.sleep cfg.processThrottleMs]
           else evs1) ++ evs2,
          status)
    | (st1, evs1, .break_) => (st1, evs1, .completed)
    | (st1, evs1, .fatal e) => (st1, evs1, .aborted e)

/-- The outputs of a run.  The JS top-level `catch` re-sets the outputs
from the accumulators (`deletedCount` is always a number, so the `isNaN`
test never withholds them), hence the accumulated results are surfaced on
every termination path. -/
structure ActionResult where
  deletedBranches : List String
  deletedCount : Nat
  events : List ApiEvent
  status : RunStatus
deriving DecidableEq

/-- A whole cleanup run (the `workflow_dispatch` / `schedule` path of the
action): parse the exclusion list — a throwing `RegExp` construction
aborts before the loop with empty outputs — then run the branch loop from
the initial accumulators and report the outputs, also on abort. -/
def runAction (cfg : Config) (branches : List (Branch × BranchEnv)) : ActionResult :=
  match parseBranchExclusions cfg.skipBranches with
  | none => ⟨[], 0, [], .aborted .configError⟩
  | some rules =>
    match runLoop cfg rules branches initialState with
    | (st, evs, status) => ⟨st.outputDeletedBranches, st.deletedCount, evs, status⟩

/-- The stateless open-PR gate of the PR-status resolution: passes when
`skip-open-prs` is disabled, or when the open-PR query succeeds and
reports no open pull request. -/
def openPRGate (cfg : Config) (env : BranchEnv) : Bool :=
  if cfg.skipOpenPRs then
    match env.openPRCount with
    | none => false
    | some n => n == 0
  else true

/-- The stateless unmerged-commit gate of the PR-status resolution:
passes when `skip-unmerged` is disabled, when the branch is 0 commits
ahead, or when — with `includeClosedUnmergedPRs` — the full PR list has
no open PR and some closed-without-merge PR. -/
def unmergedGate (cfg : Config) (env : BranchEnv) : Bool :=
  if cfg.skipUmerged then
    match env.aheadBy with
    | none => false
    | some ahead =>
      if ahead > 0 then
        if cfg.includeClosedPRs then
          match env.allPRs with
          | none => false
          | some prs => !hasOpenPRs prs && hasClosedUnmergedPRs prs
        else false
      else true
  else true

/-- The stateless "would-delete" decision for one branch: all skip gates
pass, the commit fetch succeeds, the branch is stale, and the PR-status
resolution allows deletion.  This restates the path conditions of
`processBranch` that lead to `deleteStep`, so that theorems can relate
the imperative counter updates to a pure per-branch decision. -/
def isDeletionCandidate (cfg : Config) (rules : RuleSet) (b : Branch) (env : BranchEnv) : Bool :=
  !(b.name == cfg.defaultBranch) && !b.protected_ && !(isExcluded rules b.name) &&
    (match env.commitDate with
     | none => false
     | some commitDate =>
       isStale commitDate cfg.now cfg.staleDays && openPRGate cfg env && unmergedGate cfg env)

/-- The stateless condition for a branch to be classified active: the
skip checks pass, the commit fetch succeeds, and the branch is not
stale. -/
def isActive (cfg : Config) (rules : RuleSet) (b : Branch) (env : BranchEnv) : Bool :=
  !(b.name == cfg.defaultBranch) && !b.protected_ && !(isExcluded rules b.name) &&
    (match env.commitDate with
     | none => false
     | some commitDate => !(isStale commitDate cfg.now cfg.staleDays))

/-- The stateless condition under which one iteration of the loop reaches
the end of its body (rather than leaving through a `continue`, `break` or
`throw`): the branch is either classified active, or is a deletion
candidate whose delete step does not throw (dry-run, or the `deleteRef`
call succeeds).  Only such iterations reach the throttle code. -/
def completesLoopBody (cfg : Config) (rules : RuleSet) (b : Branch) (env : BranchEnv) : Bool :=
  isActive cfg rules b env ||
    (isDeletionCandidate cfg rules b env && (cfg.dryRun || env.deleteOk))

/-! ## Concrete sample values

Used by the instance theorems below to evaluate the pipeline on concrete
runs. -/

/-- A configuration with all guards at workable values: every gate
enabled, no throttle, no dry-run, empty exclusion list. -/
def mainlineConfig : Config :=
  { staleDays := 0, skipBranches := "", skipUmerged := true, skipOpenPRs := true,
    includeClosedPRs := true, maxBranchesToDelete := 5, processThrottleMs := 0,
    rateLimitThreshold := 10, continueOnErrors := false, dryRun := false,
    now := 1000000, defaultBranch := "main" }

/-- The empty exclusion rule set (what `parseBranchExclusions ""` yields). -/
def emptyRules : RuleSet := ⟨[], []⟩

/-- A branch environment where every call succeeds, the quota is ample,
the branch is anciently committed, fully merged, and PR-free. -/
def cleanEnv : BranchEnv :=
  { rateLimitRemaining := some 100, commitDate := some 0, openPRCount := some 0,
    aheadBy := some 0, allPRs := some [], deleteOk := true }

/-- A plain unprotected branch. -/
def featureBranch : Branch := ⟨"feature-a", false⟩

/-! ## Helper lemmas about one loop iteration

The pipeline stages are analysed bottom-up: `deleteStep`, then
`unmergedStep`, `staleStep`, `processBranch`.  The central tool is a
case list of every result a stage can produce. -/

/-- Every result `deleteStep` can produce. -/
theorem deleteStep_cases (cfg : Config) (b : Branch) (env : BranchEnv) (st : RunState) :
    deleteStep cfg b env st =
      ({ st with processedCount := st.processedCount + 1 }, [], .fallthrough) ∨
    deleteStep cfg b env st =
      ({ outputDeletedBranches := st.outputDeletedBranches ++ [b.name],
         deletedCount := st.deletedCount + 1,
         processedCount := st.processedCount + 1 }, [.deleteCall b.name], .fallthrough) ∨
    deleteStep cfg b env st = (st, [.deleteCall b.name], .continue_) ∨
    deleteStep cfg b env st = (st, [.deleteCall b.name], .fatal .branchError) := by
  unfold deleteStep catchBranchError
  repeat' split
  · exact Or.inl rfl
  · exact Or.inr (Or.inl rfl)
  · exact Or.inr (Or.inr (Or.inl rfl))
  · exact Or.inr (Or.inr (Or.inr rfl))

/-- Every result `unmergedStep` can produce. -/
theorem unmergedStep_cases (cfg : Config) (b : Branch) (env : BranchEnv) (st : RunState) :
    unmergedStep cfg b env st = (st, [], .continue_) ∨
    unmergedStep cfg b env st = (st, [], .fatal .branchError) ∨
    unmergedStep cfg b env st = deleteStep cfg b env st := by
  unfold unmergedStep catchBranchError
  repeat' split
  all_goals first
    | exact Or.inl rfl
    | exact Or.inr (Or.inl rfl)
    | exact Or.inr (Or.inr rfl)

/-- Every result `staleStep` can produce. -/
theorem staleStep_cases (cfg : Config) (b : Branch) (env : BranchEnv) (st : RunState) :
    staleStep cfg b env st = (st, [], .continue_) ∨
    staleStep cfg b env st = (st, [], .fatal .branchError) ∨
    staleStep cfg b env st = unmergedStep cfg b env st := by
  unfold staleStep catchBranchError
  repeat' split
  all_goals first
    | exact Or.inl rfl
    | exact Or.inr (Or.inl rfl)
    | exact Or.inr (Or.inr rfl)

/-- Every result `processBranch` can produce, with the cap-precondition
recorded for the `break_` case. -/
theorem processBranch_cases (cfg : Config) (rules : RuleSet) (b : Branch)
    (env : BranchEnv) (st : RunState) :
    processBranch cfg rules b env st = (st, [], .fatal .rateLimit) ∨
    (processBranch cfg rules b env st = (st, [], .break_) ∧
      cfg.maxBranchesToDelete ≤ st.processedCount) ∨
    processBranch cfg rules b env st = (st, [], .continue_) ∨
    processBranch cfg rules b env st = (st, [], .fatal .branchError) ∨
    processBranch cfg rules b env st = (st, [], .fallthrough) ∨
    processBranch cfg rules b env st = staleStep cfg b env st := by
  unfold processBranch catchBranchError
  repeat' split
  all_goals first
    | exact Or.inl rfl
    | exact Or.inr (Or.inr (Or.inl rfl))
    | exact Or.inr (Or.inr (Or.inr (Or.inl rfl)))
    | exact Or.inr (Or.inr (Or.inr (Or.inr (Or.inl rfl))))
    | exact Or.inr (Or.inr (Or.inr (Or.inr (Or.inr rfl))))
    | exact Or.inr (Or.inl ⟨rfl, by omega⟩)

/-- One iteration changes the accumulators in exactly one of three ways:
not at all, a dry-run candidate bump of `processedCount`, or a successful
deletion appending the branch name and bumping both counters. -/
theorem processBranch_state_shape (cfg : Config) (rules : RuleSet) (b : Branch)
    (env : BranchEnv) (st : RunState) :
    (processBranch cfg rules b env st).1 = st ∨
    (processBranch cfg rules b env st).1 = { st with processedCount := st.processedCount + 1 } ∨
    (processBranch cfg rules b env st).1 =
      { outputDeletedBranches := st.outputDeletedBranches ++ [b.name],
        deletedCount := st.deletedCount + 1,
        processedCount := st.processedCount + 1 } := by
  rcases processBranch_cases cfg rules b env st with h | ⟨h, _⟩ | h | h | h | h <;> rw [h]
  · exact Or.inl rfl
  · exact Or.inl rfl
  · exact Or.inl rfl
  · exact Or.inl rfl
  · exact Or.inl rfl
  · rcases staleStep_cases cfg b env st with h2 | h2 | h2 <;> rw [h2]
    · exact Or.inl rfl
    · exact Or.inl rfl
    · rcases unmergedStep_cases cfg b env st with h3 | h3 | h3 <;> rw [h3]
      · exact Or.inl rfl
      · exact Or.inl rfl
      · rcases deleteStep_cases cfg b env st with h4 | h4 | h4 | h4 <;> rw [h4]
        · exact Or.inr (Or.inl rfl)
        · exact Or.inr (Or.inr rfl)
        · exact Or.inl rfl
        · exact Or.inl rfl

/-- One iteration emits at most the `deleteRef` event, never a sleep. -/
theorem processBranch_no_sleep (cfg : Config) (rules : RuleSet) (b : Branch)
    (env : BranchEnv) (st : RunState) (ms : Nat) :
    ApiEvent.sleep ms ∉ (processBranch cfg rules b env st).2.1 := by
  rcases processBranch_cases cfg rules b env st with h | ⟨h, _⟩ | h | h | h | h <;> rw [h] <;>
    try simp
  rcases staleStep_cases cfg b env st with h2 | h2 | h2 <;> rw [h2] <;> try simp
  rcases unmergedStep_cases cfg b env st with h3 | h3 | h3 <;> rw [h3] <;> try simp
  rcases deleteStep_cases cfg b env st with h4 | h4 | h4 | h4 <;> rw [h4] <;> simp

/-- A `break_` outcome leaves the state untouched, emits nothing, and can
only come from the max-deletions cap being already reached. -/
theorem processBranch_break (cfg : Config) (rules : RuleSet) (b : Branch)
    (env : BranchEnv) (st : RunState)
    (h : (processBranch cfg rules b env st).2.2 = .break_) :
    (processBranch cfg rules b env st).1 = st ∧
    (processBranch cfg rules b env st).2.1 = [] ∧
    cfg.maxBranchesToDelete ≤ st.processedCount := by
  rcases processBranch_cases cfg rules b env st with h1 | ⟨h1, hcap⟩ | h1 | h1 | h1 | h1 <;>
      rw [h1] at h ⊢ <;> try simp_all
  rcases staleStep_cases cfg b env st with h2 | h2 | h2 <;> rw [h2] at h ⊢ <;> try simp_all
  rcases unmergedStep_cases cfg b env st with h3 | h3 | h3 <;> rw [h3] at h ⊢ <;> try simp_all
  rcases deleteStep_cases cfg b env st with h4 | h4 | h4 | h4 <;> rw [h4] at h ⊢ <;> simp_all

/-- In dry-run mode an iteration never touches the deleted-branches
output, never touches the deletion counter, and emits no event at all. -/
theorem processBranch_dryRun (cfg : Config) (rules : RuleSet) (b : Branch)
    (env : BranchEnv) (st : RunState) (h : cfg.dryRun = true) :
    (processBranch cfg rules b env st).1.outputDeletedBranches = st.outputDeletedBranches ∧
    (processBranch cfg rules b env st).1.deletedCount = st.deletedCount ∧
    (processBranch cfg rules b env st).2.1 = [] := by
  have hdel : deleteStep cfg b env st =
      ({ st with processedCount := st.processedCount + 1 }, [], .fallthrough) := by
    unfold deleteStep
    rw [h]
    simp
  rcases processBranch_cases cfg rules b env st with h1 | ⟨h1, _⟩ | h1 | h1 | h1 | h1 <;>
      rw [h1] <;> try simp
  rcases staleStep_cases cfg b env st with h2 | h2 | h2 <;> rw [h2] <;> try simp
  rcases unmergedStep_cases cfg b env st with h3 | h3 | h3 <;> rw [h3] <;> try simp
  rw [hdel]
  exact ⟨rfl, rfl, rfl⟩

/-- When the `deleteRef` call fails, the iteration contributes neither a
name to the output list nor a count increment. -/
theorem processBranch_deleteFail (cfg : Config) (rules : RuleSet) (b : Branch)
    (env : BranchEnv) (st : RunState) (h : env.deleteOk = false) :
    (processBranch cfg rules b env st).1.outputDeletedBranches = st.outputDeletedBranches ∧
    (processBranch cfg rules b env st).1.deletedCount = st.deletedCount := by
  have hdel : (deleteStep cfg b env st).1.outputDeletedBranches = st.outputDeletedBranches ∧
      (deleteStep cfg b env st).1.deletedCount = st.deletedCount := by
    unfold deleteStep catchBranchError
    rw [h]
    repeat' split <;> simp
  rcases processBranch_cases cfg rules b env st with h1 | ⟨h1, _⟩ | h1 | h1 | h1 | h1 <;>
      rw [h1] <;> try simp
  rcases staleStep_cases cfg b env st with h2 | h2 | h2 <;> rw [h2] <;> try simp
  rcases unmergedStep_cases cfg b env st with h3 | h3 | h3 <;> rw [h3] <;> try simp
  exact hdel

/-! ## Helper lemmas about the whole loop -/

/-- Loop decomposition: when a prefix of the branch list runs to
completion with the cap not yet reached (so it neither aborted nor left
through the `break`), running the whole list is running the prefix and
then the rest from the accumulated state, with the event logs
concatenated. -/
theorem runLoop_append (cfg : Config) (rules : RuleSet) (pre rest : List (Branch × BranchEnv))
    (st0 : RunState)
    (h : (runLoop cfg rules pre st0).2.2 = .completed)
    (hcap : (runLoop cfg rules pre st0).1.processedCount < cfg.maxBranchesToDelete) :
    runLoop cfg rules (pre ++ rest) st0 =
      ((runLoop cfg rules rest (runLoop cfg rules pre st0).1).1,
        (runLoop cfg rules pre st0).2.1 ++
          (runLoop cfg rules rest (runLoop cfg rules pre st0).1).2.1,
        (runLoop cfg rules rest (runLoop cfg rules pre st0).1).2.2) := by
  induction pre generalizing st0 with
  | nil =>
    rcases hr : runLoop cfg rules rest st0 with ⟨a, ev, s⟩
    simp [runLoop, hr]
  | cons x pre ih =>
    obtain ⟨b, env⟩ := x
    rcases hpb : processBranch cfg rules b env st0 with ⟨st1, evs1, out⟩
    rw [List.cons_append]
    cases out with
    | continue_ =>
      rcases hrec : runLoop cfg rules pre st1 with ⟨st2, evs2, status⟩
      simp only [runLoop, hpb, hrec] at h hcap ⊢
      have happ := ih st1 (by rw [hrec]; exact h) (by rw [hrec]; exact hcap)
      rw [hrec] at happ
      rw [happ]
      simp
    | fallthrough =>
      rcases hrec : runLoop cfg rules pre st1 with ⟨st2, evs2, status⟩
      simp only [runLoop, hpb, hrec] at h hcap ⊢
      have happ := ih st1 (by rw [hrec]; exact h) (by rw [hrec]; exact hcap)
      rw [hrec] at happ
      rw [happ]
      simp
    | break_ =>
      have hb := processBranch_break cfg rules b env st0 (by rw [hpb])
      rw [hpb] at hb
      simp only [runLoop, hpb] at hcap
      have : st1 = st0 := hb.1
      subst this
      omega
    | fatal e =>
      simp only [runLoop, hpb] at h
      exact absurd h (by simp)

/-- Every name in the deleted-branches accumulator after a (partial) run
either was there before or is the name of one of the branches supplied to
the loop. -/
theorem runLoop_deleted_names (cfg : Config) (rules : RuleSet)
    (bs : List (Branch × BranchEnv)) (st : RunState) (n : String)
    (hn : n ∈ (runLoop cfg rules bs st).1.outputDeletedBranches) :
    n ∈ st.outputDeletedBranches ∨ ∃ x ∈ bs, x.1.name = n := by
  induction bs generalizing st with
  | nil =>
    simp only [runLoop] at hn
    exact Or.inl hn
  | cons x bs ih =>
    obtain ⟨b, env⟩ := x
    rcases hpb : processBranch cfg rules b env st with ⟨st1, evs1, out⟩
    have hshape := processBranch_state_shape cfg rules b env st
    rw [hpb] at hshape
    have hdel : st1.outputDeletedBranches = st.outputDeletedBranches ∨
        st1.outputDeletedBranches = st.outputDeletedBranches ++ [b.name] := by
      rcases hshape with hs | hs | hs <;> simp at hs <;> simp [hs]
    have step : ∀ m, m ∈ st1.outputDeletedBranches →
        m ∈ st.outputDeletedBranches ∨ ∃ x ∈ (b, env) :: bs, x.1.name = m := by
      intro m hm
      rcases hdel with he | he <;> rw [he] at hm
      · exact Or.inl hm
      · rcases List.mem_append.mp hm with hm2 | hm2
        · exact Or.inl hm2
        · simp at hm2
          exact Or.inr ⟨(b, env), List.mem_cons_self _ _, hm2.symm⟩
    cases out with
    | continue_ =>
      rcases hrec : runLoop cfg rules bs st1 with ⟨st2, evs2, status⟩
      simp only [runLoop, hpb, hrec] at hn
      rcases ih st1 (by rw [hrec]; exact hn) with hin | ⟨x, hx, hxn⟩
      · exact step n hin
      · exact Or.inr ⟨x, List.mem_cons_of_mem _ hx, hxn⟩
    | fallthrough =>
      rcases hrec : runLoop cfg rules bs st1 with ⟨st2, evs2, status⟩
      simp only [runLoop, hpb, hrec] at hn
      rcases ih st1 (by rw [hrec]; exact hn) with hin | ⟨x, hx, hxn⟩
      · exact step n hin
      · exact Or.inr ⟨x, List.mem_cons_of_mem _ hx, hxn⟩
    | break_ =>
      simp only [runLoop, hpb] at hn
      exact step n hn
    | fatal e =>
      simp only [runLoop, hpb] at hn
      exact step n hn

/-- In dry-run mode the whole loop leaves the deleted-branches output and
the deletion counter untouched and never issues a `deleteRef` call. -/
theorem runLoop_dryRun (cfg : Config) (rules : RuleSet) (h : cfg.dryRun = true)
    (bs : List (Branch × BranchEnv)) (st : RunState) :
    (runLoop cfg rules bs st).1.outputDeletedBranches = st.outputDeletedBranches ∧
    (runLoop cfg rules bs st).1.deletedCount = st.deletedCount ∧
    ∀ n, ApiEvent.deleteCall n ∉ (runLoop cfg rules bs st).2.1 := by
  induction bs generalizing st with
  | nil => simp [runLoop]
  | cons x bs ih =>
    obtain ⟨b, env⟩ := x
    rcases hpb : processBranch cfg rules b env st with ⟨st1, evs1, out⟩
    have hdry := processBranch_dryRun cfg rules b env st h
    rw [hpb] at hdry
    obtain ⟨hd1, hd2, hd3⟩ := hdry
    simp only at hd1 hd2 hd3
    subst hd3
    cases out with
    | continue_ =>
      rcases hrec : runLoop cfg rules bs st1 with ⟨st2, evs2, status⟩
      obtain ⟨hi1, hi2, hi3⟩ := ih st1
      rw [hrec] at hi1 hi2 hi3
      simp only [runLoop, hpb, hrec]
      exact ⟨hi1.trans hd1, hi2.trans hd2, by simpa using hi3⟩
    | fallthrough =>
      rcases hrec : runLoop cfg rules bs st1 with ⟨st2, evs2, status⟩
      obtain ⟨hi1, hi2, hi3⟩ := ih st1
      rw [hrec] at hi1 hi2 hi3
      simp only [runLoop, hpb, hrec]
      refine ⟨hi1.trans hd1, hi2.trans hd2, ?_⟩
      intro n
      simp only [List.mem_append]
      rintro (hmem | hmem)
      · split at hmem <;> simp at hmem
      · exact hi3 n hmem
    | break_ =>
      simp only [runLoop, hpb]
      exact ⟨hd1, hd2, by simp⟩
    | fatal e =>
      simp only [runLoop, hpb]
      exact ⟨hd1, hd2, by simp⟩

/-- The loop preserves the invariant that the deletion counter equals the
length of the deleted-branches output list. -/
theorem runLoop_count_inv (cfg : Config) (rules : RuleSet)
    (bs : List (Branch × BranchEnv)) (st : RunState)
    (h : st.deletedCount = st.outputDeletedBranches.length) :
    (runLoop cfg rules bs st).1.deletedCount =
      (runLoop cfg rules bs st).1.outputDeletedBranches.length := by
  induction bs generalizing st with
  | nil => simpa [runLoop]
  | cons x bs ih =>
    obtain ⟨b, env⟩ := x
    rcases hpb : processBranch cfg rules b env st with ⟨st1, evs1, out⟩
    have hshape := processBranch_state_shape cfg rules b env st
    rw [hpb] at hshape
    have h1 : st1.deletedCount = st1.outputDeletedBranches.length := by
      rcases hshape with hs | hs | hs <;> simp at hs <;> simp [hs, h]
    cases out with
    | continue_ =>
      rcases hrec : runLoop cfg rules bs st1 with ⟨st2, evs2, status⟩
      have := ih st1 h1
      rw [hrec] at this
      simp only [runLoop, hpb, hrec]
      exact this
    | fallthrough =>
      rcases hrec : runLoop cfg rules bs st1 with ⟨st2, evs2, status⟩
      have := ih st1 h1
      rw [hrec] at this
      simp only [runLoop, hpb, hrec]
      exact this
    | break_ =>
      simp only [runLoop, hpb]
      exact h1
    | fatal e =>
      simp only [runLoop, hpb]
      exact h1

/-- The deleted-branches accumulator only grows: a (partial) run appends a
block of names, each the name of one of the supplied branches. -/
theorem runLoop_deleted_extend (cfg : Config) (rules : RuleSet)
    (bs : List (Branch × BranchEnv)) (st : RunState) :
    ∃ d, (runLoop cfg rules bs st).1.outputDeletedBranches = st.outputDeletedBranches ++ d ∧
      ∀ n ∈ d, ∃ x ∈ bs, x.1.name = n := by
  induction bs generalizing st with
  | nil =>
    exact ⟨[], by simp [runLoop], by simp⟩
  | cons x bs ih =>
    obtain ⟨b, env⟩ := x
    rcases hpb : processBranch cfg rules b env st with ⟨st1, evs1, out⟩
    have hshape := processBranch_state_shape cfg rules b env st
    rw [hpb] at hshape
    have hdel : st1.outputDeletedBranches = st.outputDeletedBranches ∨
        st1.outputDeletedBranches = st.outputDeletedBranches ++ [b.name] := by
      rcases hshape with hs | hs | hs <;> simp at hs <;> simp [hs]
    have hstep : ∃ d1, st1.outputDeletedBranches = st.outputDeletedBranches ++ d1 ∧
        ∀ n ∈ d1, ∃ x ∈ (b, env) :: bs, x.1.name = n := by
      rcases hdel with he | he
      · exact ⟨[], by simp [he], by simp⟩
      · exact ⟨[b.name], by simp [he], by
          intro n hn
          simp at hn
          exact ⟨(b, env), List.mem_cons_self _ _, hn.symm⟩⟩
    obtain ⟨d1, hd1, hd1n⟩ := hstep
    cases out with
    | continue_ =>
      rcases hrec : runLoop cfg rules bs st1 with ⟨st2, evs2, status⟩
      obtain ⟨d2, hd2, hd2n⟩ := ih st1
      rw [hrec] at hd2
      refine ⟨d1 ++ d2, ?_, ?_⟩
      · simp only [runLoop, hpb, hrec]
        rw [hd2, hd1, List.append_assoc]
      · intro n hn
        rcases List.mem_append.mp hn with hn2 | hn2
        · exact hd1n n hn2
        · obtain ⟨x, hx, hxn⟩ := hd2n n hn2
          exact ⟨x, List.mem_cons_of_mem _ hx, hxn⟩
    | fallthrough =>
      rcases hrec : runLoop cfg rules bs st1 with ⟨st2, evs2, status⟩
      obtain ⟨d2, hd2, hd2n⟩ := ih st1
      rw [hrec] at hd2
      refine ⟨d1 ++ d2, ?_, ?_⟩
      · simp only [runLoop, hpb, hrec]
        rw [hd2, hd1, List.append_assoc]
      · intro n hn
        rcases List.mem_append.mp hn with hn2 | hn2
        · exact hd1n n hn2
        · obtain ⟨x, hx, hxn⟩ := hd2n n hn2
          exact ⟨x, List.mem_cons_of_mem _ hx, hxn⟩
    | break_ =>
      refine ⟨d1, ?_, hd1n⟩
      simp only [runLoop, hpb]
      exact hd1
    | fatal e =>
      refine ⟨d1, ?_, hd1n⟩
      simp only [runLoop, hpb]
      exact hd1

/-- With the rate-limit guard passing and the cap not reached, one
iteration reduces to the skip checks and the staleness dispatch. -/
theorem processBranch_unfold_ok (cfg : Config) (rules : RuleSet) (b : Branch)
    (env : BranchEnv) (st : RunState)
    (hguard : isSafeToProceedWithApiCalls env cfg.rateLimitThreshold = true)
    (hcap : st.processedCount < cfg.maxBranchesToDelete) :
    processBranch cfg rules b env st =
      if b.name == cfg.defaultBranch then (st, [], .continue_)
      else if b.protected_ then (st, [], .continue_)
      else if isExcluded rules b.name then (st, [], .continue_)
      else
        match env.commitDate with
        | none => catchBranchError cfg st []
        | some commitDate =>
          if isStale commitDate cfg.now cfg.staleDays then staleStep cfg b env st
          else (st, [], .fallthrough) := by
  unfold processBranch
  rw [if_neg (by simp [hguard]), if_neg (by omega)]

/-- Deletion of a stale, fully merged, PR-free branch: with the guards and
gates passing, `ahead_by = 0`, no open PR, no dry-run, and a succeeding
`deleteRef`, the iteration deletes the branch and records it. -/
theorem processBranch_deletes (cfg : Config) (rules : RuleSet) (b : Branch)
    (env : BranchEnv) (st : RunState) (t : Int)
    (hguard : isSafeToProceedWithApiCalls env cfg.rateLimitThreshold = true)
    (hcap : st.processedCount < cfg.maxBranchesToDelete)
    (hdef : (b.name == cfg.defaultBranch) = false)
    (hprot : b.protected_ = false)
    (hexcl : isExcluded rules b.name = false)
    (hcommit : env.commitDate = some t)
    (hstale : isStale t cfg.now cfg.staleDays = true)
    (hopen : env.openPRCount = some 0)
    (hahead : env.aheadBy = some 0)
    (hdry : cfg.dryRun = false)
    (hdelok : env.deleteOk = true) :
    processBranch cfg rules b env st =
      ({ outputDeletedBranches := st.outputDeletedBranches ++ [b.name],
         deletedCount := st.deletedCount + 1,
         processedCount := st.processedCount + 1 }, [ApiEvent.deleteCall b.name],
        .fallthrough) := by
  have hdel : deleteStep cfg b env st =
      ({ outputDeletedBranches := st.outputDeletedBranches ++ [b.name],
         deletedCount := st.deletedCount + 1,
         processedCount := st.processedCount + 1 }, [ApiEvent.deleteCall b.name],
        .fallthrough) := by
    unfold deleteStep
    rw [if_neg (by simp [hdry]), if_pos hdelok]
  have hunm : unmergedStep cfg b env st = deleteStep cfg b env st := by
    unfold unmergedStep
    cases hsu : cfg.skipUmerged
    · simp
    · rw [hahead]
      simp
  have hstale2 : staleStep cfg b env st = unmergedStep cfg b env st := by
    unfold staleStep
    cases hsop : cfg.skipOpenPRs
    · simp
    · rw [hopen]
      simp
  rw [processBranch_unfold_ok cfg rules b env st hguard hcap,
    if_neg (by simp_all), if_neg (by simp_all), if_neg (by simp_all), hcommit]
  dsimp only
  rw [if_pos hstale, hstale2, hunm, hdel]

/-! ## Helper lemmas about exclusion compilation -/

/-- On characters that are neither metacharacters nor `.`, the code's
token translation agrees with the specification's glob reading. -/
theorem compileChars_safe (l : List Char)
    (hl : ∀ c ∈ l, regexMeta c = false ∧ c ≠ '.') :
    compileChars l = some (l.map fun c => if c = '*' then GlobTok.anyStar else .lit c) := by
  induction l with
  | nil => rfl
  | cons c cs ih =>
    have hc := hl c (List.mem_cons_self _ _)
    have ihc := ih fun x hx => hl x (List.mem_cons_of_mem _ hx)
    have htok : tokOfChar c = some (if c = '*' then GlobTok.anyStar else .lit c) := by
      unfold tokOfChar
      by_cases hstar : c = '*'
      · rw [if_pos hstar, if_pos hstar]
      · rw [if_neg hstar, if_neg hc.2, if_neg (by simp [hc.1]), if_neg hstar]
    simp [compileChars, htok, ihc]

/-- Item compilation succeeds when every character translates. -/
theorem compileChars_isSome (l : List Char)
    (h : ∀ c ∈ l, (tokOfChar c).isSome = true) : (compileChars l).isSome = true := by
  induction l with
  | nil => rfl
  | cons c cs ih =>
    obtain ⟨t, ht⟩ := Option.isSome_iff_exists.mp (h c (List.mem_cons_self _ _))
    obtain ⟨ts, hts⟩ := Option.isSome_iff_exists.mp
      (ih fun x hx => h x (List.mem_cons_of_mem _ hx))
    simp [compileChars, ht, hts]

/-- Rule-set compilation succeeds when every item compiles. -/
theorem compileAll_isSome (l : List String)
    (h : ∀ i ∈ l, (compileItem i).isSome = true) : (compileAll l).isSome = true := by
  induction l with
  | nil => rfl
  | cons i is ih =>
    obtain ⟨r, hr⟩ := Option.isSome_iff_exists.mp (h i (List.mem_cons_self _ _))
    obtain ⟨rs, hrs⟩ := Option.isSome_iff_exists.mp
      (ih fun x hx => h x (List.mem_cons_of_mem _ hx))
    simp [compileAll, hr, hrs]

/-- Character-level translation never fails on non-metacharacters. -/
theorem tokOfChar_isSome (c : Char) (hc : regexMeta c = false) :
    (tokOfChar c).isSome = true := by
  unfold tokOfChar
  by_cases h1 : c = '*'
  · rw [if_pos h1]
    rfl
  · by_cases h2 : c = '.'
    · rw [if_neg h1, if_pos h2]
      rfl
    · rw [if_neg h1, if_neg h2, if_neg (by simp [hc])]
      rfl

/-- Every character of a comma-split segment comes from the split input
or from the accumulator. -/
theorem splitCommaAux_chars (l : List Char) : ∀ (acc seg : List Char),
    seg ∈ splitCommaAux l acc → ∀ c ∈ seg, c ∈ l ∨ c ∈ acc := by
  induction l with
  | nil =>
    intro acc seg hseg c hc
    simp only [splitCommaAux, List.mem_singleton] at hseg
    subst hseg
    exact Or.inr (List.mem_reverse.mp hc)
  | cons c0 cs ih =>
    intro acc seg hseg c hc
    simp only [splitCommaAux] at hseg
    split at hseg
    · rcases List.mem_cons.mp hseg with hseg2 | hseg2
      · subst hseg2
        exact Or.inr (List.mem_reverse.mp hc)
      · rcases ih [] seg hseg2 c hc with h | h
        · exact Or.inl (List.mem_cons_of_mem _ h)
        · simp at h
    · rcases ih (c0 :: acc) seg hseg c hc with h | h
      · exact Or.inl (List.mem_cons_of_mem _ h)
      · rcases List.mem_cons.mp h with h2 | h2
        · exact Or.inl (h2 ▸ List.mem_cons_self _ _)
        · exact Or.inr h2

/-- Trimming only removes characters. -/
theorem trimChars_subset (l : List Char) (c : Char) (hc : c ∈ trimChars l) : c ∈ l := by
  unfold trimChars at hc
  have h1 := List.mem_reverse.mp hc
  have h2 := (List.dropWhile_sublist _).subset h1
  have h3 := List.mem_reverse.mp h2
  exact (List.dropWhile_sublist _).subset h3

/-! ## C6 — staleness classifier -/

/-- C6 counterexample: with `staleDays = 0` and `now = 0`, a commit
timestamped at 1 ms is not at the exact instant of `now`, yet the
classifier reports it not stale, so "every commit whose timestamp is not
the exact instant of now is classified stale" fails (a commit timestamped
after `now` is never classified stale). -/
theorem staleness_future_commit_cex :
    isStale 1 0 0 = false ∧ (1 : Int) ≠ 0 := by decide

/-- C6 (amended): the staleness classifier returns true iff
`lastCommitTimestamp < now - staleDays * 86400000` in exact millisecond
arithmetic, and with `staleDays = 0` exactly the commits timestamped
strictly before `now` are classified stale (no rounding to day
granularity). -/
theorem staleness_exact_threshold (t now : Int) (d : Nat) :
    (isStale t now d = true ↔ t < now - (d : Int) * 86400000) ∧
    (isStale t now 0 = true ↔ t < now) := by
  simp only [isStale, staleThreshold, decide_eq_true_eq]
  constructor
  · constructor <;> intro h <;> omega
  · constructor <;> intro h <;> omega

/-! ## C8 — exclusion matching semantics -/

/-- C8 counterexample: the wildcard entry `a.*` matches the branch name
`ax` in the code (its `.` is compiled into the regular expression, where
it matches any character), while the anchored glob reading of the entry —
each `*` replaced by an arbitrary sequence, every other character literal
— does not match `ax`.  So "a wildcard entry matches iff the anchored
pattern obtained by replacing each '*' with zero-or-more-arbitrary-
characters matches the entire branch name" fails. -/
theorem exclusion_dot_entry_cex :
    (parseBranchExclusions "a.*").map (fun rules => isExcluded rules "ax") = some true ∧
    specGlobMatches "a.*" "ax" = false := by decide

/-- C8 (amended): for exclusion entries whose characters are, besides
`*`, neither JavaScript-regex metacharacters nor `.`, matching behaves
as the claim states: a literal entry (no `*`) matches only under exact
string equality, and a wildcard entry compiles to exactly the
specification's glob token list, so it matches a branch name iff the
anchored glob pattern matches the entire name. -/
theorem exclusion_matching_glob_semantics (item name : String)
    (hsafe : ∀ c ∈ item.data, regexMeta c = false ∧ c ≠ '.') :
    (isExcluded ⟨[item], []⟩ name = true ↔ name = item) ∧
    compileItem item = some (specGlobTokens item) ∧
    (∀ ts, compileItem item = some ts →
      tokensMatch ts name.data = specGlobMatches item name) := by
  have hcomp : compileItem item = some (specGlobTokens item) := by
    unfold compileItem specGlobTokens
    exact compileChars_safe item.data hsafe
  refine ⟨?_, hcomp, ?_⟩
  · simp [isExcluded]
  · intro ts hts
    rw [hcomp] at hts
    cases hts
    rfl

/-- C8 witness: the amended equivalence instantiated at the entry
`release/*` and the branch name `release/1.0`. -/
theorem exclusion_matching_glob_semantics_witness :
    ((isExcluded ⟨["release/*"], []⟩ "release/1.0" = true ↔ "release/1.0" = "release/*") ∧
      compileItem "release/*" = some (specGlobTokens "release/*") ∧
      (∀ ts, compileItem "release/*" = some ts →
        tokensMatch ts "release/1.0".data = specGlobMatches "release/*" "release/1.0")) :=
  exclusion_matching_glob_semantics "release/*" "release/1.0" (by decide)

/-! ## C9 — totality of exclusion compilation -/

/-- C9 counterexample: the rule text `release(*` contains a wildcard, so
the code builds `new RegExp('^release(.*$')`; the unbalanced `(` makes
that construction throw, so compilation is not total.  In the model the
item falls outside the compilable fragment and the whole action aborts
before processing any branch, with empty outputs. -/
theorem exclusion_unbalanced_paren_cex :
    parseBranchExclusions "release(*" = none ∧
    runAction { mainlineConfig with skipBranches := "release(*" } [] =
      ⟨[], 0, [], .aborted .configError⟩ := by decide

/-- C9 (amended): on rule texts containing no JavaScript-regex
metacharacter, compilation always succeeds (matching, being a total
function of the compiled rules, then succeeds on every branch name). -/
theorem exclusion_compilation_total (s : String)
    (hsafe : ∀ c ∈ s.data, regexMeta c = false) :
    (parseBranchExclusions s).isSome = true := by
  have hitems : ∀ item ∈ splitExclusions s, ∀ c ∈ item.data, regexMeta c = false := by
    intro item hitem c hc
    have hitem2 := List.mem_of_mem_filter hitem
    obtain ⟨seg, hseg, hmk⟩ := List.mem_map.mp hitem2
    subst hmk
    have hc2 := trimChars_subset seg c hc
    rcases splitCommaAux_chars s.data [] seg hseg c hc2 with h | h
    · exact hsafe c h
    · simp at h
  have hsome : (compileAll ((splitExclusions s).filter
      fun item => item.data.contains '*')).isSome = true := by
    refine compileAll_isSome _ fun item hit => ?_
    refine compileChars_isSome _ fun c hc => ?_
    exact tokOfChar_isSome c (hitems item (List.mem_of_mem_filter hit) c hc)
  unfold parseBranchExclusions
  split
  · rename_i heq
    rw [heq] at hsome
    simp at hsome
  · rfl

/-- C9 witness: the amended totality instantiated at the default-like
rule text `main,release/*`. -/
theorem exclusion_compilation_total_witness :
    (parseBranchExclusions "main,release/*").isSome = true :=
  exclusion_compilation_total "main,release/*" (by decide)

/-! ## C10 — deletion count / output list invariant -/

/-- C10: the deletion counter always equals the length of the
deleted-branches output list — the invariant is preserved by every single
iteration and holds for the outputs of every whole run — and a name is
recorded (equivalently, the counter incremented) only by an iteration
whose `deleteRef` call was actually issued and succeeded: a failing
delete call contributes neither, and any change to the output list
requires `deleteOk = true` and `dryRun = false`. -/
theorem deleted_count_matches_list :
    (∀ cfg rules b env st, st.deletedCount = st.outputDeletedBranches.length →
        (processBranch cfg rules b env st).1.deletedCount =
          (processBranch cfg rules b env st).1.outputDeletedBranches.length) ∧
    (∀ cfg rules b env st, env.deleteOk = false →
        (processBranch cfg rules b env st).1.outputDeletedBranches =
          st.outputDeletedBranches ∧
        (processBranch cfg rules b env st).1.deletedCount = st.deletedCount) ∧
    (∀ cfg rules b env st,
        (processBranch cfg rules b env st).1.outputDeletedBranches ≠
          st.outputDeletedBranches →
        env.deleteOk = true ∧ cfg.dryRun = false) ∧
    (∀ cfg branches,
        (runAction cfg branches).deletedCount =
          (runAction cfg branches).deletedBranches.length) := by
  refine ⟨?_, ?_, ?_, ?_⟩
  · intro cfg rules b env st h
    rcases processBranch_state_shape cfg rules b env st with hs | hs | hs <;> rw [hs] <;>
      simp [h]
  · intro cfg rules b env st h
    exact processBranch_deleteFail cfg rules b env st h
  · intro cfg rules b env st h
    constructor
    · cases hdel : env.deleteOk
      · exact absurd (processBranch_deleteFail cfg rules b env st hdel).1 h
      · rfl
    · cases hdry : cfg.dryRun
      · rfl
      · exact absurd (processBranch_dryRun cfg rules b env st hdry).1 h
  · intro cfg branches
    unfold runAction
    split
    · rfl
    · rename_i rules heq
      have hinv := runLoop_count_inv cfg rules branches initialState rfl
      rcases hrl : runLoop cfg rules branches initialState with ⟨st, evs, status⟩
      rw [hrl] at hinv
      simp only [hrl]
      exact hinv

/-- C10 witness: the per-iteration invariant and the whole-run equality
instantiated on a concrete deleting run. -/
theorem deleted_count_matches_list_witness :
    (processBranch mainlineConfig emptyRules featureBranch cleanEnv
        ⟨["old-branch"], 1, 1⟩).1.deletedCount =
      (processBranch mainlineConfig emptyRules featureBranch cleanEnv
        ⟨["old-branch"], 1, 1⟩).1.outputDeletedBranches.length ∧
    (runAction mainlineConfig [(featureBranch, cleanEnv)]).deletedCount =
      (runAction mainlineConfig [(featureBranch, cleanEnv)]).deletedBranches.length :=
  ⟨deleted_count_matches_list.1 mainlineConfig emptyRules featureBranch cleanEnv
      ⟨["old-branch"], 1, 1⟩ (by decide),
    deleted_count_matches_list.2.2.2 mainlineConfig [(featureBranch, cleanEnv)]⟩

/-! ## C1 — rate-limit abort surfaces the partial result -/

/-- C1: when a prefix of the run completes normally with the cap not yet
reached and the rate-limit probe for the next branch reports remaining
quota below the threshold, the whole run aborts with the rate-limit
error, and the reported outputs are exactly the accumulated ones of the
prefix — the names deleted before the abort, in processing order, with
nothing from the aborted branch or the branches never reached — so the
partial result is surfaced, not discarded, on the abort. -/
theorem rate_limit_abort_preserves_partial_result (cfg : Config) (rules : RuleSet)
    (pre post : List (Branch × BranchEnv)) (b : Branch) (env : BranchEnv)
    (st : RunState) (evs : List ApiEvent) (r : Nat)
    (hrules : parseBranchExclusions cfg.skipBranches = some rules)
    (hpre : runLoop cfg rules pre initialState = (st, evs, .completed))
    (hcap : st.processedCount < cfg.maxBranchesToDelete)
    (hprobe : env.rateLimitRemaining = some r)
    (hr : r < cfg.rateLimitThreshold) :
    runAction cfg (pre ++ (b, env) :: post) =
      ⟨st.outputDeletedBranches, st.deletedCount, evs, .aborted .rateLimit⟩ := by
  have hguard : isSafeToProceedWithApiCalls env cfg.rateLimitThreshold = false := by
    unfold isSafeToProceedWithApiCalls
    rw [hprobe]
    simp [hr]
  have hstep : processBranch cfg rules b env st = (st, [], .fatal .rateLimit) := by
    unfold processBranch
    rw [if_pos (by simp [hguard])]
  have happ := runLoop_append cfg rules pre ((b, env) :: post) initialState
    (by rw [hpre]) (by rw [hpre]; exact hcap)
  rw [hpre] at happ
  have hnext : runLoop cfg rules ((b, env) :: post) st = (st, [], .aborted .rateLimit) := by
    simp only [runLoop, hstep]
  rw [hnext] at happ
  unfold runAction
  rw [hrules]
  dsimp only
  rw [happ]
  simp

/-- C1 witness: a two-branch run whose first branch is deleted and whose
second trips the rate-limit guard reports exactly the first name and the
rate-limit abort. -/
theorem rate_limit_abort_preserves_partial_result_witness :
    runAction mainlineConfig
        [(featureBranch, cleanEnv),
          (⟨"feature-b", false⟩, { cleanEnv with rateLimitRemaining := some 5 })] =
      ⟨["feature-a"], 1, [ApiEvent.deleteCall "feature-a"], .aborted .rateLimit⟩ :=
  rate_limit_abort_preserves_partial_result mainlineConfig emptyRules
    [(featureBranch, cleanEnv)] [] ⟨"feature-b", false⟩
    { cleanEnv with rateLimitRemaining := some 5 }
    ⟨["feature-a"], 1, 1⟩ [ApiEvent.deleteCall "feature-a"] 5
    (by decide) (by decide) (by decide) (by decide) (by decide)

/-! ## C2 — open pull request always blocks deletion -/

/-- C2 counterexample: with `skip-open-prs` and `skip-unmerged` both
disabled the pipeline consults no pull-request state at all, so a stale
branch that has one open pull request (both PR queries would report it)
and is 3 commits ahead of the default branch is deleted — with
`includeClosedUnmergedPRs = true` — contradicting "the branch is never
deleted, for every value of the includeClosedUnmergedPRs flag". -/
theorem open_pr_branch_deleted_cex :
    runAction { mainlineConfig with skipOpenPRs := false, skipUmerged := false }
        [(featureBranch,
          { cleanEnv with
            openPRCount := some 1
            aheadBy := some 3
            allPRs := some [⟨.opened, none⟩] })] =
      ⟨["feature-a"], 1, [ApiEvent.deleteCall "feature-a"], .completed⟩ := by decide

/-- C2 (amended): provided at least one of `skip-open-prs` /
`skip-unmerged` is enabled (both are by default), a stale, non-excluded,
non-protected, non-default branch with `ahead_by > 0` and at least one
open pull request is always skipped — the iteration is a `continue` that
leaves the state untouched and issues no call — for every value of the
`includeClosedUnmergedPRs` flag. -/
theorem open_pr_branch_skipped (cfg : Config) (rules : RuleSet) (b : Branch)
    (env : BranchEnv) (st : RunState) (t : Int) (n a : Nat) (prs : List PullRequest)
    (hflags : cfg.skipOpenPRs = true ∨ cfg.skipUmerged = true)
    (hguard : isSafeToProceedWithApiCalls env cfg.rateLimitThreshold = true)
    (hcap : st.processedCount < cfg.maxBranchesToDelete)
    (hdef : (b.name == cfg.defaultBranch) = false)
    (hprot : b.protected_ = false)
    (hexcl : isExcluded rules b.name = false)
    (hcommit : env.commitDate = some t)
    (hstale : isStale t cfg.now cfg.staleDays = true)
    (hopen : env.openPRCount = some n) (hn : 0 < n)
    (hahead : env.aheadBy = some a) (ha : 0 < a)
    (hprs : env.allPRs = some prs)
    (hprsopen : hasOpenPRs prs = true) :
    processBranch cfg rules b env st = (st, [], .continue_) := by
  rw [processBranch_unfold_ok cfg rules b env st hguard hcap,
    if_neg (by simp [hdef]), if_neg (by simp [hprot]), if_neg (by simp [hexcl]), hcommit]
  dsimp only
  rw [if_pos hstale]
  unfold staleStep
  cases hsop : cfg.skipOpenPRs with
  | false =>
    have hsu : cfg.skipUmerged = true := by
      rcases hflags with h | h
      · rw [hsop] at h
        exact absurd h (by simp)
      · exact h
    rw [if_neg (by simp)]
    unfold unmergedStep
    rw [if_pos hsu, hahead]
    dsimp only
    rw [if_pos ha]
    cases hic : cfg.includeClosedPRs with
    | false => rw [if_neg (by simp)]
    | true =>
      rw [if_pos rfl, hprs]
      dsimp only
      rw [if_pos hprsopen]
  | true =>
    rw [if_pos rfl, hopen]
    dsimp only
    rw [if_pos hn]

/-- C2 witness: the amended skip instantiated on a concrete stale branch
with one open PR, 3 commits ahead, under the default gate flags. -/
theorem open_pr_branch_skipped_witness :
    processBranch mainlineConfig emptyRules featureBranch
        { cleanEnv with
          openPRCount := some 2
          aheadBy := some 3
          allPRs := some [⟨.opened, none⟩] } initialState =
      (initialState, [], .continue_) :=
  open_pr_branch_skipped mainlineConfig emptyRules featureBranch
    { cleanEnv with
      openPRCount := some 2
      aheadBy := some 3
      allPRs := some [⟨.opened, none⟩] } initialState 0 2 3 [⟨.opened, none⟩]
    (Or.inl rfl) (by decide) (by decide) (by decide) (by decide) (by decide) (by decide)
    (by decide) (by decide) (by decide) (by decide) (by decide) (by decide) (by decide)

/-! ## C3 — closed-without-merge PR override -/

/-- C3: a stale branch with `ahead_by > 0`, no open pull request, and at
least one pull request closed without a merge timestamp, with
`skip-unmerged` enabled: when `includeClosedUnmergedPRs = true` the
branch is deleted (the closed-unmerged PR overrides the unmerged-commit
block), and when it is `false` the branch is skipped. -/
theorem closed_unmerged_pr_override (cfg : Config) (rules : RuleSet) (b : Branch)
    (env : BranchEnv) (st : RunState) (t : Int) (a : Nat) (prs : List PullRequest)
    (hguard : isSafeToProceedWithApiCalls env cfg.rateLimitThreshold = true)
    (hcap : st.processedCount < cfg.maxBranchesToDelete)
    (hdef : (b.name == cfg.defaultBranch) = false)
    (hprot : b.protected_ = false)
    (hexcl : isExcluded rules b.name = false)
    (hcommit : env.commitDate = some t)
    (hstale : isStale t cfg.now cfg.staleDays = true)
    (hskipU : cfg.skipUmerged = true)
    (hopen : env.openPRCount = some 0)
    (hahead : env.aheadBy = some a) (ha : 0 < a)
    (hprs : env.allPRs = some prs)
    (hnoopen : hasOpenPRs prs = false)
    (hclosed : hasClosedUnmergedPRs prs = true)
    (hdry : cfg.dryRun = false) (hdelok : env.deleteOk = true) :
    (cfg.includeClosedPRs = true →
      processBranch cfg rules b env st =
        ({ outputDeletedBranches := st.outputDeletedBranches ++ [b.name],
           deletedCount := st.deletedCount + 1,
           processedCount := st.processedCount + 1 }, [ApiEvent.deleteCall b.name],
          .fallthrough)) ∧
    (cfg.includeClosedPRs = false →
      processBranch cfg rules b env st = (st, [], .continue_)) := by
  have hpb : processBranch cfg rules b env st = unmergedStep cfg b env st := by
    rw [processBranch_unfold_ok cfg rules b env st hguard hcap,
      if_neg (by simp [hdef]), if_neg (by simp [hprot]), if_neg (by simp [hexcl]), hcommit]
    dsimp only
    rw [if_pos hstale]
    unfold staleStep
    cases hsop : cfg.skipOpenPRs with
    | false => rw [if_neg (by simp)]
    | true =>
      rw [if_pos rfl, hopen]
      dsimp only
      rw [if_neg (by simp)]
  rw [hpb]
  unfold unmergedStep
  rw [if_pos hskipU, hahead]
  dsimp only
  rw [if_pos ha]
  constructor
  · intro hic
    rw [if_pos hic, hprs]
    dsimp only
    rw [if_neg (by simp [hnoopen]), if_pos hclosed]
    unfold deleteStep
    rw [if_neg (by simp [hdry]), if_pos hdelok]
  · intro hic
    rw [if_neg (by simp [hic])]

/-- C3 witness: the override instantiated on a concrete stale branch, 2
commits ahead, with one closed-without-merge PR, under
`includeClosedUnmergedPRs = true`: the branch is deleted. -/
theorem closed_unmerged_pr_override_witness :
    processBranch mainlineConfig emptyRules featureBranch
        { cleanEnv with
          aheadBy := some 2
          allPRs := some [⟨.closed, none⟩] }
        initialState =
      ({ outputDeletedBranches := ["feature-a"], deletedCount := 1, processedCount := 1 },
        [ApiEvent.deleteCall "feature-a"], .fallthrough) :=
  (closed_unmerged_pr_override mainlineConfig emptyRules featureBranch
      { cleanEnv with
        aheadBy := some 2
        allPRs := some [⟨.closed, none⟩] }
      initialState 0 2 [⟨.closed, none⟩]
      (by decide) (by decide) (by decide) (by decide) (by decide) (by decide) (by decide)
      (by decide) (by decide) (by decide) (by decide) (by decide) (by decide) (by decide)
      (by decide) (by decide)).1 rfl


/-! ## Path-condition specification lemmas -/

theorem deleteStep_spec (cfg : Config) (b : Branch) (env : BranchEnv) (st : RunState) :
    ((cfg.dryRun || env.deleteOk) = true →
      (deleteStep cfg b env st).1.processedCount = st.processedCount + 1 ∧
      (deleteStep cfg b env st).2.2 = .fallthrough) ∧
    ((cfg.dryRun || env.deleteOk) = false →
      (deleteStep cfg b env st).1 = st ∧
      (deleteStep cfg b env st).2.2 ≠ .fallthrough) := by
  unfold deleteStep catchBranchError
  cases hdry : cfg.dryRun with
  | true => simp
  | false =>
    cases hok : env.deleteOk with
    | true => simp
    | false => cases hce : cfg.continueOnErrors <;> simp

theorem unmergedStep_spec (cfg : Config) (b : Branch) (env : BranchEnv) (st : RunState) :
    (unmergedGate cfg env = true → unmergedStep cfg b env st = deleteStep cfg b env st) ∧
    (unmergedGate cfg env = false →
      (unmergedStep cfg b env st).1 = st ∧ (unmergedStep cfg b env st).2.1 = [] ∧
      (unmergedStep cfg b env st).2.2 ≠ .fallthrough) := by
  unfold unmergedStep unmergedGate catchBranchError
  cases hsu : cfg.skipUmerged with
  | false => simp
  | true =>
    simp only [if_pos rfl]
    cases hab : env.aheadBy with
    | none =>
      refine ⟨by simp, fun _ => ?_⟩
      cases hce : cfg.continueOnErrors <;> simp
    | some ahead =>
      dsimp only
      by_cases hgt : ahead > 0
      · simp only [if_pos hgt]
        cases hic : cfg.includeClosedPRs with
        | false => simp
        | true =>
          simp only [if_pos rfl]
          cases hall : env.allPRs with
          | none =>
            refine ⟨by simp, fun _ => ?_⟩
            cases hce : cfg.continueOnErrors <;> simp
          | some prs =>
            dsimp only
            cases hop : hasOpenPRs prs with
            | true => simp
            | false =>
              simp only [Bool.not_false, Bool.true_and]
              cases hcu : hasClosedUnmergedPRs prs with
              | true => simp
              | false => simp
      · simp only [if_neg hgt]
        simp

theorem staleStep_spec (cfg : Config) (b : Branch) (env : BranchEnv) (st : RunState) :
    ((openPRGate cfg env && unmergedGate cfg env) = true →
      staleStep cfg b env st = deleteStep cfg b env st) ∧
    ((openPRGate cfg env && unmergedGate cfg env) = false →
      (staleStep cfg b env st).1 = st ∧ (staleStep cfg b env st).2.1 = [] ∧
      (staleStep cfg b env st).2.2 ≠ .fallthrough) := by
  have hu := unmergedStep_spec cfg b env st
  unfold staleStep openPRGate catchBranchError
  cases hsop : cfg.skipOpenPRs with
  | false =>
    simp only [Bool.false_eq_true, if_false, Bool.true_and]
    exact hu
  | true =>
    simp only [if_pos rfl]
    cases hopc : env.openPRCount with
    | none =>
      refine ⟨by simp, fun _ => ?_⟩
      cases hce : cfg.continueOnErrors <;> simp
    | some n =>
      dsimp only
      by_cases hn : n > 0
      · rw [if_pos hn]
        have hne : (n == 0) = false := by
          cases n with
          | zero => omega
          | succ m => rfl
        rw [hne]
        simp
      · have h0 : n = 0 := by omega
        subst h0
        simpa using hu

theorem candidate_not_active (cfg : Config) (rules : RuleSet) (b : Branch) (env : BranchEnv)
    (h : isDeletionCandidate cfg rules b env = true) :
    isActive cfg rules b env = false := by
  unfold isDeletionCandidate at h
  unfold isActive
  cases hcd : env.commitDate with
  | none =>
    rw [hcd] at h
    simp at h
  | some t =>
    rw [hcd] at h
    dsimp only at h ⊢
    cases hst : isStale t cfg.now cfg.staleDays with
    | false =>
      rw [hst] at h
      simp at h
    | true => simp

theorem processBranch_spec (cfg : Config) (rules : RuleSet) (b : Branch) (env : BranchEnv)
    (st : RunState)
    (hguard : isSafeToProceedWithApiCalls env cfg.rateLimitThreshold = true)
    (hcap : st.processedCount < cfg.maxBranchesToDelete) :
    (isDeletionCandidate cfg rules b env = true →
      processBranch cfg rules b env st = deleteStep cfg b env st) ∧
    (isDeletionCandidate cfg rules b env = false →
      (processBranch cfg rules b env st).1 = st ∧
      (processBranch cfg rules b env st).2.1 = [] ∧
      ((processBranch cfg rules b env st).2.2 = .fallthrough ↔
        isActive cfg rules b env = true)) := by
  rw [processBranch_unfold_ok cfg rules b env st hguard hcap]
  unfold isDeletionCandidate isActive catchBranchError
  cases hbd : b.name == cfg.defaultBranch with
  | true => simp
  | false =>
    simp only [Bool.false_eq_true, if_false, Bool.not_false, Bool.true_and]
    cases hbp : b.protected_ with
    | true => simp
    | false =>
      simp only [Bool.false_eq_true, if_false, Bool.not_false, Bool.true_and]
      cases hbe : isExcluded rules b.name with
      | true => simp
      | false =>
        simp only [Bool.false_eq_true, if_false, Bool.not_false, Bool.true_and]
        cases hcd : env.commitDate with
        | none =>
          refine ⟨by simp, fun _ => ?_⟩
          cases hce : cfg.continueOnErrors <;> simp
        | some t =>
          dsimp only
          cases hst : isStale t cfg.now cfg.staleDays with
          | false => simp
          | true =>
            simp only [if_pos rfl, Bool.true_and]
            have hs := staleStep_spec cfg b env st
            cases hg : openPRGate cfg env && unmergedGate cfg env with
            | true =>
              refine ⟨fun _ => hs.1 hg, fun hfalse => absurd hfalse (by simp)⟩
            | false =>
              obtain ⟨h1, h2, h3⟩ := hs.2 hg
              refine ⟨fun htrue => absurd htrue (by simp), fun _ => ⟨h1, h2, ?_⟩⟩
              constructor
              · intro hf
                exact absurd hf h3
              · intro hact
                exact absurd hact (by simp)


/-! ## C4 — dry-run frame -/

/-- C4: with `dry-run` enabled no `deleteRef` call is ever issued, the
deleted-branches output stays empty and the deletion count stays 0; yet
each iteration still advances the per-run candidate counter exactly when
the branch is a would-delete candidate, and once the counter has reached
`max-branches-to-delete` the loop stops immediately (after the guard),
processing no further branch. -/
theorem dry_run_no_deletions :
    (∀ cfg branches, cfg.dryRun = true →
        (runAction cfg branches).deletedBranches = [] ∧
        (runAction cfg branches).deletedCount = 0 ∧
        ∀ n, ApiEvent.deleteCall n ∉ (runAction cfg branches).events) ∧
    (∀ cfg rules b env st, cfg.dryRun = true →
        isSafeToProceedWithApiCalls env cfg.rateLimitThreshold = true →
        st.processedCount < cfg.maxBranchesToDelete →
        (processBranch cfg rules b env st).1.processedCount =
          st.processedCount + (if isDeletionCandidate cfg rules b env then 1 else 0)) ∧
    (∀ cfg rules b env st rest,
        isSafeToProceedWithApiCalls env cfg.rateLimitThreshold = true →
        cfg.maxBranchesToDelete ≤ st.processedCount →
        runLoop cfg rules ((b, env) :: rest) st = (st, [], .completed)) := by
  refine ⟨?_, ?_, ?_⟩
  · intro cfg branches hdry
    unfold runAction
    split
    · exact ⟨rfl, rfl, by simp⟩
    · rename_i rules heq
      obtain ⟨h1, h2, h3⟩ := runLoop_dryRun cfg rules hdry branches initialState
      rcases hrl : runLoop cfg rules branches initialState with ⟨st, evs, status⟩
      rw [hrl] at h1 h2 h3
      simp only [hrl]
      exact ⟨h1, h2, h3⟩
  · intro cfg rules b env st hdry hguard hcap
    obtain ⟨hsp1, hsp2⟩ := processBranch_spec cfg rules b env st hguard hcap
    cases hc : isDeletionCandidate cfg rules b env with
    | true =>
      rw [hsp1 hc, if_pos rfl]
      unfold deleteStep
      rw [if_pos hdry]
    | false =>
      obtain ⟨h1, h2, h3⟩ := hsp2 hc
      rw [h1]
      simp
  · intro cfg rules b env st rest hguard hcapge
    have hstep : processBranch cfg rules b env st = (st, [], .break_) := by
      unfold processBranch
      rw [if_neg (by simp [hguard]), if_pos hcapge]
    simp only [runLoop, hstep]

/-- C4 witness: a dry run over one deletable branch reports no deleted
branch while its candidate counter advances from 0 to 1. -/
theorem dry_run_no_deletions_witness :
    (runAction { mainlineConfig with dryRun := true }
        [(featureBranch, cleanEnv)]).deletedBranches = [] ∧
    (processBranch { mainlineConfig with dryRun := true } emptyRules featureBranch cleanEnv
        initialState).1.processedCount =
      initialState.processedCount +
        (if isDeletionCandidate { mainlineConfig with dryRun := true } emptyRules featureBranch
            cleanEnv then 1 else 0) :=
  ⟨(dry_run_no_deletions.1 { mainlineConfig with dryRun := true }
      [(featureBranch, cleanEnv)] rfl).1,
    dry_run_no_deletions.2.1 { mainlineConfig with dryRun := true } emptyRules featureBranch
      cleanEnv initialState rfl (by decide) (by decide)⟩

/-! ## C5 — throttle placement -/

/-- C5 counterexample: with a positive throttle delay (50 ms) configured,
a run whose only branch is skipped as the default branch emits no sleep
event at all: every skip path leaves the iteration through `continue`,
which bypasses the throttle code at the end of the loop body, so the
pipeline does not suspend after every processed branch. -/
theorem skipped_branch_no_throttle_cex :
    runAction { mainlineConfig with processThrottleMs := 50 }
        [(⟨"main", false⟩, cleanEnv)] = ⟨[], 0, [], .completed⟩ := by decide

/-- Characterization of one iteration's outcome against the stateless
body-completion predicate. -/
theorem processBranch_fallthrough_iff (cfg : Config) (rules : RuleSet) (b : Branch)
    (env : BranchEnv) (st : RunState)
    (hguard : isSafeToProceedWithApiCalls env cfg.rateLimitThreshold = true)
    (hcap : st.processedCount < cfg.maxBranchesToDelete) :
    ((processBranch cfg rules b env st).2.2 = .fallthrough) ↔
      completesLoopBody cfg rules b env = true := by
  obtain ⟨hsp1, hsp2⟩ := processBranch_spec cfg rules b env st hguard hcap
  unfold completesLoopBody
  cases hc : isDeletionCandidate cfg rules b env with
  | false =>
    obtain ⟨h1, h2, hiff⟩ := hsp2 hc
    simp only [Bool.false_and, Bool.or_false]
    exact hiff
  | true =>
    rw [hsp1 hc, candidate_not_active cfg rules b env hc]
    simp only [Bool.false_or, Bool.true_and]
    obtain ⟨hd1, hd2⟩ := deleteStep_spec cfg b env st
    cases hdo : (cfg.dryRun || env.deleteOk) with
    | true => simp [(hd1 hdo).2]
    | false =>
      have hne := (hd2 hdo).2
      simp [hne]

/-- C5 (amended): with a positive throttle delay, the loop suspends after
an iteration exactly when that iteration runs the loop body to its end —
the branch was classified active, or was a would-delete candidate whose
delete step did not throw (dry-run or successful `deleteRef`).  Branches
skipped as default/protected/excluded, for an open PR, for unmerged
commits, or through the error-continuation path leave through `continue`
and are not followed by the delay. -/
theorem throttle_only_after_completed_body (cfg : Config) (rules : RuleSet) (b : Branch)
    (env : BranchEnv) (st : RunState)
    (hguard : isSafeToProceedWithApiCalls env cfg.rateLimitThreshold = true)
    (hcap : st.processedCount < cfg.maxBranchesToDelete)
    (hthrottle : 0 < cfg.processThrottleMs) :
    (runLoop cfg rules [(b, env)] st).2.1.contains (ApiEvent.sleep cfg.processThrottleMs) =
      completesLoopBody cfg rules b env := by
  have hiff := processBranch_fallthrough_iff cfg rules b env st hguard hcap
  have hnos := processBranch_no_sleep cfg rules b env st cfg.processThrottleMs
  rcases hpb : processBranch cfg rules b env st with ⟨st1, evs1, out⟩
  rw [hpb] at hiff hnos
  have hc1 : evs1.contains (ApiEvent.sleep cfg.processThrottleMs) = false := by
    cases hq : evs1.contains (ApiEvent.sleep cfg.processThrottleMs) with
    | false => rfl
    | true => exact absurd (List.mem_of_elem_eq_true hq) hnos
  cases out with
  | fallthrough =>
    have hcomp : completesLoopBody cfg rules b env = true := hiff.mp rfl
    rw [hcomp]
    simp only [runLoop, hpb]
    rw [if_pos hthrottle]
    exact List.elem_eq_true_of_mem (by simp)
  | continue_ =>
    have hcomp : completesLoopBody cfg rules b env = false := by
      cases hcc : completesLoopBody cfg rules b env with
      | false => rfl
      | true => exact absurd (hiff.mpr hcc) (by simp)
    rw [hcomp]
    simp only [runLoop, hpb]
    simpa using hc1
  | break_ =>
    have hb := processBranch_break cfg rules b env st (by rw [hpb])
    omega
  | fatal e =>
    have hcomp : completesLoopBody cfg rules b env = false := by
      cases hcc : completesLoopBody cfg rules b env with
      | false => rfl
      | true => exact absurd (hiff.mpr hcc) (by simp)
    rw [hcomp]
    simp only [runLoop, hpb]
    exact hc1

/-- C5 witness: the amended characterization instantiated on a deletable
branch (sleep emitted) under a 50 ms throttle. -/
theorem throttle_only_after_completed_body_witness :
    (runLoop { mainlineConfig with processThrottleMs := 50 } emptyRules
        [(featureBranch, cleanEnv)] initialState).2.1.contains
      (ApiEvent.sleep ({ mainlineConfig with processThrottleMs := 50 } : Config).processThrottleMs) =
      completesLoopBody { mainlineConfig with processThrottleMs := 50 } emptyRules
        featureBranch cleanEnv :=
  throttle_only_after_completed_body { mainlineConfig with processThrottleMs := 50 }
    emptyRules featureBranch cleanEnv initialState (by decide) (by decide) (by decide)


/-! ## C7 — merged stale branches are deleted exactly once -/

/-- C7 counterexample: a branch whose last commit is exactly
`staleDays` days old (age `now - commit = 86400000 ms = 1 * 86400000
ms`, so age is at least `staleDays` days) with `ahead_by = 0` is NOT
deleted by a clean non-dry run: the code requires the commit date to be
strictly below `now - staleDays` days, so the boundary branch is
classified active and the run ends with an empty deleted list. -/
theorem stale_boundary_not_deleted_cex :
    runAction { mainlineConfig with staleDays := 1, now := 86400000 }
        [(featureBranch, cleanEnv)] = ⟨[], 0, [], .completed⟩ ∧
    (86400000 : Int) - 0 ≥ 1 * 86400000 := by decide

/-- C7 (amended): a non-default, non-protected, non-excluded branch whose
last commit is strictly older than `staleDays` days, which has no open
pull request and is 0 commits ahead of the default branch, is deleted by
a non-dry-run pass whose prefix ran cleanly under the cap and whose
rate-limit probe and API calls succeed, and — when no other listed branch
shares its name — its name appears exactly once in the deleted-branches
output. -/
theorem stale_merged_branch_deleted_once (cfg : Config) (rules : RuleSet)
    (pre post : List (Branch × BranchEnv)) (b : Branch) (env : BranchEnv)
    (st : RunState) (evs : List ApiEvent) (t : Int)
    (hrules : parseBranchExclusions cfg.skipBranches = some rules)
    (hpre : runLoop cfg rules pre initialState = (st, evs, .completed))
    (hcap : st.processedCount < cfg.maxBranchesToDelete)
    (hguard : isSafeToProceedWithApiCalls env cfg.rateLimitThreshold = true)
    (hdef : (b.name == cfg.defaultBranch) = false)
    (hprot : b.protected_ = false)
    (hexcl : isExcluded rules b.name = false)
    (hcommit : env.commitDate = some t)
    (hstale : isStale t cfg.now cfg.staleDays = true)
    (hopen : env.openPRCount = some 0)
    (hahead : env.aheadBy = some 0)
    (hdry : cfg.dryRun = false)
    (hdelok : env.deleteOk = true)
    (hdistinct : ∀ x ∈ pre ++ post, x.1.name ≠ b.name) :
    (runAction cfg (pre ++ (b, env) :: post)).deletedBranches.count b.name = 1 := by
  have hprenames : b.name ∉ st.outputDeletedBranches := by
    intro hmem
    rcases runLoop_deleted_names cfg rules pre initialState b.name
        (by rw [hpre]; exact hmem) with h | ⟨x, hx, hxn⟩
    · simp [initialState] at h
    · exact hdistinct x (List.mem_append.mpr (Or.inl hx)) hxn
  have hstep := processBranch_deletes cfg rules b env st t hguard hcap hdef hprot hexcl
    hcommit hstale hopen hahead hdry hdelok
  obtain ⟨d, hd, hdnames⟩ := runLoop_deleted_extend cfg rules post
    { outputDeletedBranches := st.outputDeletedBranches ++ [b.name],
      deletedCount := st.deletedCount + 1, processedCount := st.processedCount + 1 }
  rcases hrest : runLoop cfg rules post
      { outputDeletedBranches := st.outputDeletedBranches ++ [b.name],
        deletedCount := st.deletedCount + 1, processedCount := st.processedCount + 1 }
    with ⟨stf, evsf, statusf⟩
  rw [hrest] at hd
  dsimp only at hd
  have happ := runLoop_append cfg rules pre ((b, env) :: post) initialState
    (by rw [hpre]) (by rw [hpre]; exact hcap)
  rw [hpre] at happ
  have hnext : (runLoop cfg rules ((b, env) :: post) st).1 = stf := by
    simp only [runLoop, hstep, hrest]
  have hres : (runAction cfg (pre ++ (b, env) :: post)).deletedBranches =
      stf.outputDeletedBranches := by
    unfold runAction
    rw [hrules]
    dsimp only
    rw [happ]
    dsimp only
    rw [hnext]
  have hdb : b.name ∉ d := by
    intro hmem
    obtain ⟨x, hx, hxn⟩ := hdnames b.name hmem
    exact hdistinct x (List.mem_append.mpr (Or.inr hx)) hxn
  rw [hres, hd]
  rw [List.count_append, List.count_append]
  rw [List.count_eq_zero.mpr hprenames, List.count_eq_zero.mpr hdb]
  simp

/-- C7 witness: a clean one-branch run deletes the stale merged branch
and reports its name exactly once. -/
theorem stale_merged_branch_deleted_once_witness :
    (runAction mainlineConfig [(featureBranch, cleanEnv)]).deletedBranches.count
      "feature-a" = 1 :=
  stale_merged_branch_deleted_once mainlineConfig emptyRules [] [] featureBranch cleanEnv
    initialState [] 0 (by decide) (by decide) (by decide) (by decide) (by decide)
    (by decide) (by decide) (by decide) (by decide) (by decide) (by decide) (by decide)
    (by decide) (by simp)

end StaleBranches
